import Mathlib

/-
Verification of the objcache package (cache.go): an in-process key/value
cache with lazy TTL expiration and capacity-triggered eviction.

Shallow embedding notes:
* Go `map[string]*list.Element` is modelled as an association list from
  keys to elements.  A `container/list` element is modelled as a pair of a
  stable numeric identity (allocation order, tracked by `nextId`) and its
  immutable payload (`pair`); the Go code never reassigns `Value`, so the
  copy stored in the index always agrees with the one in the sequence.
* `time.Time` / `time.Duration` / `UnixNano` values are `Int` nanoseconds.
  The `time.Now()` calls made inside a single operation are modelled as one
  explicit `now` argument of that operation.
* `removeOldest` dereferences `c.list.Front()` without a nil check; a call
  on an empty sequence would panic in Go, so it returns `Option` here and
  `Set` propagates the `none`.
* `Set` and `New` return a Go `error`; the source always returns `nil`,
  modelled as `Option String` with `none` for `nil`.
-/

namespace objcache

/-- Modelled from the spec: the `Config` struct is not part of cache.go
(only its uses `c.config.Expiration` and `c.config.MaxEntryLimit` are).
Per the spec it holds the capacity ceiling `MaxEntryLimit` (an integer)
and the default TTL `Expiration` (a duration, in nanoseconds here). -/
structure Config where
  MaxEntryLimit : Int
  Expiration : Int
deriving DecidableEq

/-- The `pair` struct of cache.go: stored object, absolute expiration
timestamp in nanoseconds, and the key (kept for index removal). -/
structure pair (V : Type) where
  Object : V
  expire : Int
  key : String
deriving DecidableEq

/-- A `container/list` element: stable identity plus its immutable value. -/
abbrev Elem (V : Type) := Nat × pair V

/-- The `ObjCache` struct: index map, ordered sequence (front first),
incrementally tracked live count, configuration, and the allocation
counter that models pointer freshness of list elements. -/
structure ObjCache (V : Type) where
  items : List (String × Elem V)
  list : List (Elem V)
  itemCount : Int
  config : Config
  nextId : Nat
deriving DecidableEq

/-- Go map read `m[k]`: first binding for `k`, if any. -/
def mapLookup {A : Type} (m : List (String × A)) (k : String) : Option A :=
  match m with
  | [] => none
  | q :: rest => if q.1 = k then some q.2 else mapLookup rest k

/-- Go `delete(m, k)`: drop every binding for `k`. -/
def mapErase {A : Type} (m : List (String × A)) (k : String) : List (String × A) :=
  match m with
  | [] => []
  | q :: rest => if q.1 = k then mapErase rest k else q :: mapErase rest k

/-- Go map write `m[k] = v`. -/
def mapInsert {A : Type} (m : List (String × A)) (k : String) (v : A) :
    List (String × A) :=
  mapErase m k ++ [(k, v)]

/-- Go `list.Remove(elem)`: drop the (unique) element with this identity. -/
def listRemove {V : Type} (l : List (Elem V)) (id : Nat) : List (Elem V) :=
  match l with
  | [] => []
  | e :: rest => if e.1 = id then rest else e :: listRemove rest id

/-- Go `list.MoveToBack(elem)`: if the element belongs to the sequence,
unlink it and append it at the back; otherwise do nothing. -/
def moveToBack {V : Type} (l : List (Elem V)) (e : Elem V) : List (Elem V) :=
  if l.any (fun q => decide (q.1 = e.1)) then listRemove l e.1 ++ [e] else l

/-- The loop body state of `removeExpired`: starting from the sequence,
index and count, pop stale front entries until the front is fresh. -/
def sweepAux {V : Type} (now : Int) :
    List (Elem V) → List (String × Elem V) → Int →
      List (Elem V) × List (String × Elem V) × Int
  | [], items, cnt => ([], items, cnt)
  | e :: rest, items, cnt =>
    if e.2.expire < now then sweepAux now rest (mapErase items e.2.key) (cnt - 1)
    else (e :: rest, items, cnt)

/-- `removeExpired` of cache.go, with the single `time.Now()` it takes as
the explicit argument `now`. -/
def removeExpired {V : Type} (c : ObjCache V) (now : Int) : ObjCache V :=
  let r := sweepAux now c.list c.items c.itemCount
  { c with list := r.1, items := r.2.1, itemCount := r.2.2 }

/-- `removeOldest` of cache.go.  The Go code dereferences `c.list.Front()`
unconditionally; on an empty sequence that is a nil-pointer panic, which
this model reports as `none`. -/
def removeOldest {V : Type} (c : ObjCache V) : Option (ObjCache V) :=
  match c.list with
  | [] => none
  | e :: rest =>
    some { c with itemCount := c.itemCount - 1,
                  items := mapErase c.items e.2.key,
                  list := rest }

/-- The tail of `Set`'s absent-key branch: build the pair, push it at the
back, index it, and bump the count. -/
def insertNew {V : Type} (c : ObjCache V) (k : String) (x : V) (expire : Int) :
    ObjCache V :=
  { c with items := mapInsert c.items k (c.nextId, ⟨x, expire, k⟩),
           list := c.list ++ [(c.nextId, ⟨x, expire, k⟩)],
           itemCount := c.itemCount + 1,
           nextId := c.nextId + 1 }

/-- `Set` of cache.go.  The two `time.Now()` calls inside one `Set` are
modelled by the same instant `now`.  The returned `Option String` is the Go
`error` (always `nil` when the call finishes); the outer `Option` is `none`
exactly when the Go code would panic inside `removeOldest`. -/
def Set {V : Type} (c : ObjCache V) (k : String) (x : V) (d : Int) (now : Int) :
    Option (ObjCache V × Option String) :=
  let d' := if d = 0 then c.config.Expiration else d
  match mapLookup c.items k with
  | some e => some ({ c with list := moveToBack c.list e }, none)
  | none =>
    let c1 := removeExpired c now
    if c1.config.MaxEntryLimit ≤ c1.itemCount then
      match removeOldest c1 with
      | none => none
      | some c2 => some (insertNew c2 k x (now + d'), none)
    else some (insertNew c1 k x (now + d'), none)

/-- `Get` of cache.go: result value (`none` for Go `nil`), found flag, and
the state after the call (a stale hit is removed as a side effect). -/
def Get {V : Type} (c : ObjCache V) (k : String) (now : Int) :
    Option V × Bool × ObjCache V :=
  match mapLookup c.items k with
  | none => (none, false, c)
  | some e =>
    if e.2.expire < now then
      (none, false, { c with itemCount := c.itemCount - 1,
                             items := mapErase c.items k,
                             list := listRemove c.list e.1 })
    else (some e.2.Object, true, c)

/-- `Del` of cache.go: found flag and the state after the call. -/
def Del {V : Type} (c : ObjCache V) (k : String) : Bool × ObjCache V :=
  match mapLookup c.items k with
  | none => (false, c)
  | some e =>
    (true, { c with itemCount := c.itemCount - 1,
                    items := mapErase c.items k,
                    list := listRemove c.list e.1 })

/-- `New` of cache.go: fresh empty cache and the literal `nil` error. -/
def New (V : Type) (config : Config) : ObjCache V × Option String :=
  ({ items := [], list := [], itemCount := 0, config := config, nextId := 0 },
   none)

/-! ### Association-list map lemmas -/

theorem mapLookup_mapErase {A : Type} (m : List (String × A)) (k k' : String) :
    mapLookup (mapErase m k) k' = if k' = k then none else mapLookup m k' := by
  induction m with
  | nil => simp [mapErase, mapLookup]
  | cons q rest ih =>
    by_cases h1 : q.1 = k
    · rw [show mapErase (q :: rest) k = mapErase rest k by simp [mapErase, h1], ih]
      by_cases h2 : k' = k
      · simp [h2]
      · have hq : q.1 ≠ k' := by rw [h1]; exact fun hc => h2 hc.symm
        simp [h2, mapLookup, hq]
    · rw [show mapErase (q :: rest) k = q :: mapErase rest k by simp [mapErase, h1]]
      by_cases h3 : q.1 = k'
      · have h2 : ¬ k' = k := by rw [← h3]; exact fun hc => h1 hc
        simp [mapLookup, h3, h2]
      · simp [mapLookup, h3, ih]

theorem mapLookup_append {A : Type} (m1 m2 : List (String × A)) (k : String) :
    mapLookup (m1 ++ m2) k =
      match mapLookup m1 k with
      | some v => some v
      | none => mapLookup m2 k := by
  induction m1 with
  | nil => simp [mapLookup]
  | cons q rest ih =>
    by_cases h : q.1 = k <;> simp [mapLookup, h, ih]

theorem mapLookup_mapInsert {A : Type} (m : List (String × A)) (k : String)
    (v : A) (k' : String) :
    mapLookup (mapInsert m k v) k' = if k' = k then some v else mapLookup m k' := by
  unfold mapInsert
  rw [mapLookup_append, mapLookup_mapErase]
  by_cases h : k' = k
  · simp [h, mapLookup]
  · have hk : ¬ k = k' := fun hc => h hc.symm
    simp only [if_neg h]
    cases hm : mapLookup m k' <;> simp [mapLookup, hk, hm]

theorem mapErase_eq_self {A : Type} (m : List (String × A)) (k : String)
    (h : ∀ q ∈ m, q.1 ≠ k) : mapErase m k = m := by
  induction m with
  | nil => rfl
  | cons q rest ih =>
    have hq : q.1 ≠ k := h q (by simp)
    simp [mapErase, hq]
    exact ih (fun q' hq' => h q' (by simp [hq']))

/-! ### Sequence (`container/list`) lemmas -/

/-- Identities in the sequence are pairwise distinct: the model of the fact
that the Go linked list holds physically distinct elements. -/
def NodupIds {V : Type} (l : List (Elem V)) : Prop :=
  List.Pairwise (fun a b => a.1 ≠ b.1) l

theorem listRemove_sublist {V : Type} (l : List (Elem V)) (id : Nat) :
    List.Sublist (listRemove l id) l := by
  induction l with
  | nil => simp [listRemove]
  | cons e rest ih =>
    simp only [listRemove]
    by_cases h : e.1 = id
    · rw [if_pos h]
      exact List.sublist_cons_self e rest
    · rw [if_neg h]
      exact List.Sublist.cons₂ e ih

theorem mem_of_mem_listRemove {V : Type} {l : List (Elem V)} {id : Nat}
    {x : Elem V} (h : x ∈ listRemove l id) : x ∈ l :=
  (listRemove_sublist l id).mem h

theorem nodupIds_listRemove {V : Type} {l : List (Elem V)} {id : Nat}
    (h : NodupIds l) : NodupIds (listRemove l id) :=
  List.Pairwise.sublist (listRemove_sublist l id) h

theorem mem_listRemove_iff {V : Type} {l : List (Elem V)} {id : Nat}
    {x : Elem V} (h : NodupIds l) :
    x ∈ listRemove l id ↔ x ∈ l ∧ x.1 ≠ id := by
  induction l with
  | nil => simp [listRemove]
  | cons e rest ih =>
    have hrest : NodupIds rest := (List.pairwise_cons.mp h).2
    have hhd : ∀ y ∈ rest, e.1 ≠ y.1 := (List.pairwise_cons.mp h).1
    by_cases he : e.1 = id
    · rw [show listRemove (e :: rest) id = rest by simp [listRemove, he]]
      constructor
      · intro hx
        refine ⟨List.mem_cons_of_mem e hx, ?_⟩
        intro hx1
        exact hhd x hx (by rw [he, hx1])
      · rintro ⟨hx, hx1⟩
        rcases List.mem_cons.mp hx with h1 | h1
        · exact absurd (by rw [h1, he]) hx1
        · exact h1
    · rw [show listRemove (e :: rest) id = e :: listRemove rest id by
        simp [listRemove, he]]
      constructor
      · intro hx
        rcases List.mem_cons.mp hx with h1 | h1
        · refine ⟨by simp [h1], ?_⟩
          rw [h1]
          exact he
        · have h2 := (ih hrest).mp h1
          exact ⟨List.mem_cons_of_mem e h2.1, h2.2⟩
      · rintro ⟨hx, hx1⟩
        rcases List.mem_cons.mp hx with h1 | h1
        · simp [h1]
        · exact List.mem_cons_of_mem e ((ih hrest).mpr ⟨h1, hx1⟩)

theorem eq_of_mem_of_same_id {V : Type} {l : List (Elem V)} {x y : Elem V}
    (h : NodupIds l) (hx : x ∈ l) (hy : y ∈ l) (hid : x.1 = y.1) : x = y := by
  induction l with
  | nil => cases hx
  | cons e rest ih =>
    have hhd : ∀ z ∈ rest, e.1 ≠ z.1 := (List.pairwise_cons.mp h).1
    have hrest : NodupIds rest := (List.pairwise_cons.mp h).2
    rcases List.mem_cons.mp hx with h1 | h1 <;>
      rcases List.mem_cons.mp hy with h2 | h2
    · rw [h1, h2]
    · exact absurd (h1 ▸ hid) (hhd y h2)
    · exact absurd (h2 ▸ hid).symm (hhd x h1)
    · exact ih hrest h1 h2

theorem length_listRemove_of_mem {V : Type} {l : List (Elem V)} {e : Elem V}
    (h : e ∈ l) : (listRemove l e.1).length + 1 = l.length := by
  induction l with
  | nil => cases h
  | cons q rest ih =>
    by_cases hq : q.1 = e.1
    · simp [listRemove, hq]
    · have : e ∈ rest := by
        rcases List.mem_cons.mp h with h1 | h1
        · exact absurd (h1 ▸ rfl) hq
        · exact h1
      simp only [listRemove, if_neg hq, List.length_cons]
      rw [← ih this]

/-! ### Expiration sweep lemmas -/

/-- Staleness test used by the sweep characterization. -/
def stale {V : Type} (now : Int) (e : Elem V) : Bool :=
  decide (e.2.expire < now)

theorem sweepAux_list {V : Type} (now : Int) (l : List (Elem V))
    (m : List (String × Elem V)) (cnt : Int) :
    (sweepAux now l m cnt).1 = l.dropWhile (stale now) := by
  induction l generalizing m cnt with
  | nil => simp [sweepAux, List.dropWhile]
  | cons e rest ih =>
    by_cases h : e.2.expire < now <;>
      simp [sweepAux, List.dropWhile, stale, h, ih]

theorem sweepAux_count {V : Type} (now : Int) (l : List (Elem V))
    (m : List (String × Elem V)) (cnt : Int) :
    (sweepAux now l m cnt).2.2 =
      cnt - ((l.takeWhile (stale now)).length : Int) := by
  induction l generalizing m cnt with
  | nil => simp [sweepAux, List.takeWhile]
  | cons e rest ih =>
    by_cases h : e.2.expire < now <;>
      simp [sweepAux, List.takeWhile, stale, h, ih]
    ring

theorem sweepAux_items {V : Type} (now : Int) (l : List (Elem V))
    (m : List (String × Elem V)) (cnt : Int) :
    (sweepAux now l m cnt).2.1 =
      (l.takeWhile (stale now)).foldl (fun mm e => mapErase mm e.2.key) m := by
  induction l generalizing m cnt with
  | nil => simp [sweepAux, List.takeWhile]
  | cons e rest ih =>
    by_cases h : e.2.expire < now <;>
      simp [sweepAux, List.takeWhile, stale, h, ih]

theorem sweepAux_lookup_none {V : Type} (now : Int) (l : List (Elem V))
    {m : List (String × Elem V)} (cnt : Int) {k : String}
    (h : mapLookup m k = none) :
    mapLookup (sweepAux now l m cnt).2.1 k = none := by
  induction l generalizing m cnt with
  | nil => simpa [sweepAux] using h
  | cons e rest ih =>
    by_cases he : e.2.expire < now <;> simp [sweepAux, he]
    · exact ih _ (by rw [mapLookup_mapErase]; split <;> simp [h])
    · exact h

theorem sweepAux_noop {V : Type} (now : Int) (l : List (Elem V))
    (m : List (String × Elem V)) (cnt : Int)
    (h : ∀ e ∈ l.head?, ¬ e.2.expire < now) :
    sweepAux now l m cnt = (l, m, cnt) := by
  cases l with
  | nil => rfl
  | cons e rest =>
    have : ¬ e.2.expire < now := h e (by simp)
    simp [sweepAux, this]

theorem removeExpired_config {V : Type} (c : ObjCache V) (now : Int) :
    (removeExpired c now).config = c.config := rfl

theorem removeExpired_nextId {V : Type} (c : ObjCache V) (now : Int) :
    (removeExpired c now).nextId = c.nextId := rfl

/-! ### Invariants -/

/-- Invariant I1: a key is indexed iff exactly one entry with that key is
in the sequence, and the index maps each key to exactly that entry.  The
exactly-one reading is enforced by the distinctness of element identities
together with the two lookup conditions. -/
def I1 {V : Type} (c : ObjCache V) : Prop :=
  (∀ k e, mapLookup c.items k = some e → e ∈ c.list ∧ e.2.key = k) ∧
  (∀ e ∈ c.list, mapLookup c.items e.2.key = some e) ∧
  NodupIds c.list

/-- Invariant I2: the tracked live count equals the number of entries in
the sequence. -/
def I2 {V : Type} (c : ObjCache V) : Prop :=
  c.itemCount = (c.list.length : Int)

/-- Allocation counter dominates every element identity in the sequence:
the model of the fact that `PushBack` returns a fresh element. -/
def FreshIds {V : Type} (c : ObjCache V) : Prop :=
  ∀ e ∈ c.list, e.1 < c.nextId

/-- The full inductive invariant. -/
def WF {V : Type} (c : ObjCache V) : Prop := I1 c ∧ I2 c ∧ FreshIds c

theorem wf_new {V : Type} (config : Config) : WF (New V config).1 := by
  refine ⟨⟨?_, ?_, ?_⟩, ?_, ?_⟩ <;> simp [New, mapLookup, NodupIds, I2, FreshIds]

/-- Removing a `k ↦ e` binding together with `e` preserves the invariant.
This is the common shape of `Del` and of `Get`'s stale branch. -/
theorem wf_removeEntry {V : Type} {c : ObjCache V} {k : String} {e : Elem V}
    (h : WF c) (hl : mapLookup c.items k = some e) :
    WF { c with itemCount := c.itemCount - 1,
                items := mapErase c.items k,
                list := listRemove c.list e.1 } := by
  obtain ⟨⟨hfwd, hbwd, hnd⟩, hcnt, hfresh⟩ := h
  obtain ⟨hemem, hekey⟩ := hfwd k e hl
  refine ⟨⟨?_, ?_, nodupIds_listRemove hnd⟩, ?_, ?_⟩
  · intro k' e' h'
    rw [mapLookup_mapErase] at h'
    by_cases hk : k' = k
    · simp [hk] at h'
    · rw [if_neg hk] at h'
      obtain ⟨he'mem, he'key⟩ := hfwd k' e' h'
      refine ⟨(mem_listRemove_iff hnd).mpr ⟨he'mem, ?_⟩, he'key⟩
      intro hid
      have : e' = e := eq_of_mem_of_same_id hnd he'mem hemem hid
      exact hk (by rw [← he'key, this, hekey])
  · intro x hx
    obtain ⟨hxmem, hxid⟩ := (mem_listRemove_iff hnd).mp hx
    have hxk : x.2.key ≠ k := by
      intro hc
      have : mapLookup c.items k = some x := by rw [← hc]; exact hbwd x hxmem
      rw [hl] at this
      exact hxid (by rw [Option.some_inj.mp this])
    rw [mapLookup_mapErase, if_neg hxk]
    exact hbwd x hxmem
  · show c.itemCount - 1 = ((listRemove c.list e.1).length : Int)
    have := length_listRemove_of_mem hemem
    rw [hcnt, ← this]
    push_cast
    ring
  · intro x hx
    exact hfresh x (mem_of_mem_listRemove hx)

theorem wf_Del {V : Type} {c : ObjCache V} (h : WF c) (k : String) :
    WF (Del c k).2 := by
  unfold Del
  cases hm : mapLookup c.items k with
  | none => simpa using h
  | some e => simpa using wf_removeEntry h hm

theorem wf_Get {V : Type} {c : ObjCache V} (h : WF c) (k : String) (now : Int) :
    WF (Get c k now).2.2 := by
  unfold Get
  cases hm : mapLookup c.items k with
  | none => simpa using h
  | some e =>
    by_cases hst : e.2.expire < now
    · simpa [hst] using wf_removeEntry h hm
    · simpa [hst] using h

theorem sweepAux_wf {V : Type} (now : Int) :
    ∀ (l : List (Elem V)) (m : List (String × Elem V)) (cnt : Int),
      (∀ k e, mapLookup m k = some e → e ∈ l ∧ e.2.key = k) →
      (∀ e ∈ l, mapLookup m e.2.key = some e) →
      NodupIds l → cnt = (l.length : Int) →
      (∀ k e, mapLookup (sweepAux now l m cnt).2.1 k = some e →
          e ∈ (sweepAux now l m cnt).1 ∧ e.2.key = k) ∧
      (∀ e ∈ (sweepAux now l m cnt).1,
          mapLookup (sweepAux now l m cnt).2.1 e.2.key = some e) ∧
      NodupIds (sweepAux now l m cnt).1 ∧
      (sweepAux now l m cnt).2.2 = ((sweepAux now l m cnt).1.length : Int) ∧
      (∀ e ∈ (sweepAux now l m cnt).1, e ∈ l) := by
  intro l
  induction l with
  | nil =>
    intro m cnt hfwd hbwd hnd hcnt
    rw [show sweepAux now ([] : List (Elem V)) m cnt = ([], m, cnt) from rfl]
    exact ⟨hfwd, hbwd, hnd, hcnt, fun x hx => hx⟩
  | cons e rest ih =>
    intro m cnt hfwd hbwd hnd hcnt
    have hhd : ∀ y ∈ rest, e.1 ≠ y.1 := (List.pairwise_cons.mp hnd).1
    have hrest : NodupIds rest := (List.pairwise_cons.mp hnd).2
    by_cases hst : e.2.expire < now
    · rw [show sweepAux now (e :: rest) m cnt
          = sweepAux now rest (mapErase m e.2.key) (cnt - 1) by
        simp [sweepAux, hst]]
      have h1 : ∀ k x, mapLookup (mapErase m e.2.key) k = some x →
          x ∈ rest ∧ x.2.key = k := by
        intro k x hx
        rw [mapLookup_mapErase] at hx
        by_cases hk : k = e.2.key
        · simp [hk] at hx
        · rw [if_neg hk] at hx
          obtain ⟨hxm, hxk⟩ := hfwd k x hx
          rcases List.mem_cons.mp hxm with hc | hc
          · exact absurd (by rw [← hxk, hc]) hk
          · exact ⟨hc, hxk⟩
      have h2 : ∀ x ∈ rest, mapLookup (mapErase m e.2.key) x.2.key = some x := by
        intro x hx
        have hxk : x.2.key ≠ e.2.key := by
          intro hc
          have hex : mapLookup m e.2.key = some e := hbwd e (by simp)
          have hxx : mapLookup m e.2.key = some x := by
            rw [← hc]
            exact hbwd x (List.mem_cons_of_mem e hx)
          rw [hex] at hxx
          exact hhd x hx (by rw [Option.some_inj.mp hxx])
        rw [mapLookup_mapErase, if_neg hxk]
        exact hbwd x (List.mem_cons_of_mem e hx)
      have h4 : cnt - 1 = (rest.length : Int) := by
        rw [hcnt, List.length_cons]
        push_cast
        ring
      have := ih (mapErase m e.2.key) (cnt - 1) h1 h2 hrest h4
      exact ⟨this.1, this.2.1, this.2.2.1, this.2.2.2.1,
        fun x hx => List.mem_cons_of_mem e (this.2.2.2.2 x hx)⟩
    · rw [show sweepAux now (e :: rest) m cnt = (e :: rest, m, cnt) by
        simp [sweepAux, hst]]
      exact ⟨hfwd, hbwd, hnd, hcnt, fun x hx => hx⟩

theorem wf_removeExpired {V : Type} {c : ObjCache V} (h : WF c) (now : Int) :
    WF (removeExpired c now) := by
  obtain ⟨⟨hfwd, hbwd, hnd⟩, hcnt, hfresh⟩ := h
  have := sweepAux_wf now c.list c.items c.itemCount hfwd hbwd hnd hcnt
  exact ⟨⟨this.1, this.2.1, this.2.2.1⟩, this.2.2.2.1,
    fun x hx => hfresh x (this.2.2.2.2 x hx)⟩

theorem removeExpired_lookup_none {V : Type} {c : ObjCache V} {k : String}
    (h : mapLookup c.items k = none) (now : Int) :
    mapLookup (removeExpired c now).items k = none :=
  sweepAux_lookup_none now c.list c.itemCount h

theorem removeOldest_eq {V : Type} {c : ObjCache V} {e : Elem V}
    {rest : List (Elem V)} (hlist : c.list = e :: rest) :
    removeOldest c = some { c with itemCount := c.itemCount - 1,
                                   items := mapErase c.items e.2.key,
                                   list := listRemove c.list e.1 } := by
  unfold removeOldest
  rw [hlist]
  simp [listRemove]

theorem wf_removeOldest {V : Type} {c c' : ObjCache V} (h : WF c)
    (hr : removeOldest c = some c') : WF c' := by
  cases hlist : c.list with
  | nil => rw [removeOldest, hlist] at hr; cases hr
  | cons e rest =>
    rw [removeOldest_eq hlist] at hr
    have hemem : e ∈ c.list := by rw [hlist]; simp
    have hl : mapLookup c.items e.2.key = some e := h.1.2.1 e hemem
    have := wf_removeEntry h hl
    rw [Option.some_inj.mp hr.symm]
    exact this

theorem removeOldest_lookup_none {V : Type} {c c' : ObjCache V} {k : String}
    (h : mapLookup c.items k = none) (hr : removeOldest c = some c') :
    mapLookup c'.items k = none := by
  cases hlist : c.list with
  | nil => rw [removeOldest, hlist] at hr; cases hr
  | cons e rest =>
    rw [removeOldest, hlist] at hr
    rw [← Option.some_inj.mp hr]
    rw [mapLookup_mapErase]
    split <;> simp [h]

theorem wf_insertNew {V : Type} {c : ObjCache V} {k : String}
    (h : WF c) (hnone : mapLookup c.items k = none) (x : V) (ex : Int) :
    WF (insertNew c k x ex) := by
  obtain ⟨⟨hfwd, hbwd, hnd⟩, hcnt, hfresh⟩ := h
  refine ⟨⟨?_, ?_, ?_⟩, ?_, ?_⟩
  · intro k' e' h'
    rw [show (insertNew c k x ex).items
        = mapInsert c.items k (c.nextId, ⟨x, ex, k⟩) from rfl,
      mapLookup_mapInsert] at h'
    by_cases hk : k' = k
    · rw [if_pos hk] at h'
      rw [← Option.some_inj.mp h']
      exact ⟨by simp [insertNew], by simp [hk]⟩
    · rw [if_neg hk] at h'
      obtain ⟨hm, hkey⟩ := hfwd k' e' h'
      exact ⟨by simp [insertNew, hm], hkey⟩
  · intro e' h'
    rcases List.mem_append.mp h' with hm | hm
    · have hkey : e'.2.key ≠ k := by
        intro hc
        have := hbwd e' hm
        rw [hc, hnone] at this
        cases this
      rw [show (insertNew c k x ex).items
          = mapInsert c.items k (c.nextId, ⟨x, ex, k⟩) from rfl,
        mapLookup_mapInsert, if_neg hkey]
      exact hbwd e' hm
    · rcases List.mem_singleton.mp hm with rfl
      rw [show (insertNew c k x ex).items
          = mapInsert c.items k (c.nextId, ⟨x, ex, k⟩) from rfl,
        mapLookup_mapInsert]
      simp
  · rw [show (insertNew c k x ex).list = c.list ++ [(c.nextId, ⟨x, ex, k⟩)] from rfl]
    rw [NodupIds, List.pairwise_append]
    refine ⟨hnd, by simp, ?_⟩
    intro a ha b hb
    rcases List.mem_singleton.mp hb with rfl
    exact Nat.ne_of_lt (hfresh a ha)
  · show c.itemCount + 1 = ((c.list ++ [(c.nextId, (⟨x, ex, k⟩ : pair V))]).length : Int)
    rw [hcnt, List.length_append, List.length_singleton]
    push_cast
    ring
  · intro e' h'
    show e'.1 < c.nextId + 1
    rcases List.mem_append.mp h' with hm | hm
    · exact Nat.lt_succ_of_lt (hfresh e' hm)
    · rcases List.mem_singleton.mp hm with rfl
      exact Nat.lt_succ_self _

theorem any_id_of_mem {V : Type} {l : List (Elem V)} {e : Elem V} (h : e ∈ l) :
    l.any (fun q => decide (q.1 = e.1)) = true :=
  List.any_eq_true.mpr ⟨e, h, by simp⟩

theorem wf_moveToBack {V : Type} {c : ObjCache V} {e : Elem V}
    (h : WF c) (he : e ∈ c.list) (hk : mapLookup c.items e.2.key = some e) :
    WF { c with list := moveToBack c.list e } := by
  obtain ⟨⟨hfwd, hbwd, hnd⟩, hcnt, hfresh⟩ := h
  have hmtb : moveToBack c.list e = listRemove c.list e.1 ++ [e] := by
    unfold moveToBack
    rw [if_pos (any_id_of_mem he)]
  refine ⟨⟨?_, ?_, ?_⟩, ?_, ?_⟩
  · intro k' e' h'
    have h'' : mapLookup c.items k' = some e' := h'
    obtain ⟨hm, hkey⟩ := hfwd k' e' h''
    refine ⟨?_, hkey⟩
    show e' ∈ moveToBack c.list e
    rw [hmtb]
    by_cases heq : e' = e
    · simp [heq]
    · have hid : e'.1 ≠ e.1 := fun hc => heq (eq_of_mem_of_same_id hnd hm he hc)
      exact List.mem_append.mpr (Or.inl ((mem_listRemove_iff hnd).mpr ⟨hm, hid⟩))
  · intro x hx
    have hx' : x ∈ moveToBack c.list e := hx
    rw [hmtb] at hx'
    show mapLookup c.items x.2.key = some x
    rcases List.mem_append.mp hx' with hm | hm
    · exact hbwd x (mem_of_mem_listRemove hm)
    · rcases List.mem_singleton.mp hm with rfl
      exact hk
  · show NodupIds (moveToBack c.list e)
    rw [hmtb, NodupIds, List.pairwise_append]
    refine ⟨nodupIds_listRemove hnd, by simp, ?_⟩
    intro a ha b hb
    rcases List.mem_singleton.mp hb with rfl
    exact ((mem_listRemove_iff hnd).mp ha).2
  · show c.itemCount = ((moveToBack c.list e).length : Int)
    rw [hmtb, List.length_append, List.length_singleton,
      length_listRemove_of_mem he, hcnt]
  · intro x hx
    have hx' : x ∈ moveToBack c.list e := hx
    rw [hmtb] at hx'
    show x.1 < c.nextId
    rcases List.mem_append.mp hx' with hm | hm
    · exact hfresh x (mem_of_mem_listRemove hm)
    · rcases List.mem_singleton.mp hm with rfl
      exact hfresh _ he

theorem wf_Set {V : Type} {c c' : ObjCache V} {err : Option String}
    (h : WF c) {k : String} {x : V} {d now : Int}
    (hs : Set c k x d now = some (c', err)) : WF c' := by
  unfold Set at hs
  cases hm : mapLookup c.items k with
  | some e =>
    rw [hm] at hs
    simp only [Option.some_inj] at hs
    obtain ⟨he, hkey⟩ := h.1.1 k e hm
    have := wf_moveToBack h he (by rw [hkey]; exact hm)
    injection hs with hs1 hs2
    rw [← hs1]
    exact this
  | none =>
    rw [hm] at hs
    simp only at hs
    have hwf1 : WF (removeExpired c now) := wf_removeExpired h now
    have hn1 : mapLookup (removeExpired c now).items k = none :=
      removeExpired_lookup_none hm now
    by_cases hcap : (removeExpired c now).config.MaxEntryLimit
        ≤ (removeExpired c now).itemCount
    · rw [if_pos hcap] at hs
      cases hro : removeOldest (removeExpired c now) with
      | none => rw [hro] at hs; cases hs
      | some c2 =>
        rw [hro] at hs
        simp only [Option.some_inj] at hs
        have hwf2 : WF c2 := wf_removeOldest hwf1 hro
        have hn2 : mapLookup c2.items k = none :=
          removeOldest_lookup_none hn1 hro
        have := wf_insertNew hwf2 hn2 x
          (now + if d = 0 then c.config.Expiration else d)
        injection hs with hs1 hs2
        rw [← hs1]
        exact this
    · rw [if_neg hcap] at hs
      simp only [Option.some_inj] at hs
      have := wf_insertNew hwf1 hn1 x
        (now + if d = 0 then c.config.Expiration else d)
      injection hs with hs1 hs2
      rw [← hs1]
      exact this

/-- States reachable from a freshly constructed cache by the public
operations `Set`, `Get` and `Del` (a panicking `Set` yields no state). -/
inductive Reachable {V : Type} : ObjCache V → Prop
  | new (config : Config) : Reachable (New V config).1
  | set {c c' : ObjCache V} {err : Option String} {k : String} {x : V}
      {d now : Int} (hc : Reachable c) (hs : Set c k x d now = some (c', err)) :
      Reachable c'
  | get {c : ObjCache V} (k : String) (now : Int) (hc : Reachable c) :
      Reachable (Get c k now).2.2
  | del {c : ObjCache V} (k : String) (hc : Reachable c) :
      Reachable (Del c k).2

theorem reachable_wf {V : Type} {c : ObjCache V} (h : Reachable c) : WF c := by
  induction h with
  | new config => exact wf_new config
  | set hc hs ih => exact wf_Set ih hs
  | get k now hc ih => exact wf_Get ih k now
  | del k hc ih => exact wf_Del ih k

/-! ### Operation unfolding helpers -/

theorem get_none_eq {V : Type} {c : ObjCache V} {k : String}
    (hm : mapLookup c.items k = none) (now : Int) :
    Get c k now = (none, false, c) := by
  unfold Get
  rw [hm]

theorem get_stale_eq {V : Type} {c : ObjCache V} {k : String} {e : Elem V}
    (hm : mapLookup c.items k = some e) {now : Int} (hst : e.2.expire < now) :
    Get c k now = (none, false, { c with itemCount := c.itemCount - 1,
                                         items := mapErase c.items k,
                                         list := listRemove c.list e.1 }) := by
  unfold Get
  rw [hm]
  simp [hst]

theorem get_fresh_eq {V : Type} {c : ObjCache V} {k : String} {e : Elem V}
    (hm : mapLookup c.items k = some e) {now : Int} (hfr : ¬ e.2.expire < now) :
    Get c k now = (some e.2.Object, true, c) := by
  unfold Get
  rw [hm]
  simp [hfr]

theorem del_none_eq {V : Type} {c : ObjCache V} {k : String}
    (hm : mapLookup c.items k = none) : Del c k = (false, c) := by
  unfold Del
  rw [hm]

theorem del_some_eq {V : Type} {c : ObjCache V} {k : String} {e : Elem V}
    (hm : mapLookup c.items k = some e) :
    Del c k = (true, { c with itemCount := c.itemCount - 1,
                              items := mapErase c.items k,
                              list := listRemove c.list e.1 }) := by
  unfold Del
  rw [hm]

theorem set_present_eq {V : Type} {c : ObjCache V} {k : String} {e : Elem V}
    (hm : mapLookup c.items k = some e) (x : V) (d now : Int) :
    Set c k x d now = some ({ c with list := moveToBack c.list e }, none) := by
  unfold Set
  rw [hm]

theorem set_absent_unfold {V : Type} {c : ObjCache V} {k : String}
    (hm : mapLookup c.items k = none) (x : V) (d now : Int) :
    Set c k x d now =
      (if (removeExpired c now).config.MaxEntryLimit
          ≤ (removeExpired c now).itemCount then
        match removeOldest (removeExpired c now) with
        | none => none
        | some c2 =>
          some (insertNew c2 k x
            (now + if d = 0 then c.config.Expiration else d), none)
      else
        some (insertNew (removeExpired c now) k x
          (now + if d = 0 then c.config.Expiration else d), none)) := by
  unfold Set
  rw [hm]

/-- The sweep keeps the count equal to the sequence length. -/
theorem removeExpired_count_length {V : Type} {c : ObjCache V}
    (hcnt : c.itemCount = (c.list.length : Int)) (now : Int) :
    (removeExpired c now).itemCount = ((removeExpired c now).list.length : Int) := by
  show (sweepAux now c.list c.items c.itemCount).2.2
      = ((sweepAux now c.list c.items c.itemCount).1.length : Int)
  rw [sweepAux_count, sweepAux_list, hcnt]
  have hsplit : (c.list.takeWhile (stale now)).length
      + (c.list.dropWhile (stale now)).length = c.list.length := by
    rw [← List.length_append, List.takeWhile_append_dropWhile]
  omega

/-- `Set` on an absent key, under a positive capacity and a count matching
the sequence length, reaches the insertion step: there is an intermediate
state `c2` (post-sweep, post-eviction) with `k` still absent, the original
configuration, and the result is `insertNew` on it with a `nil` error. -/
theorem set_absent_some {V : Type} {c : ObjCache V} {k : String}
    (hm : mapLookup c.items k = none) (hlim : 1 ≤ c.config.MaxEntryLimit)
    (hcnt : c.itemCount = (c.list.length : Int)) (x : V) (d now : Int) :
    ∃ c2 : ObjCache V,
      Set c k x d now = some (insertNew c2 k x
        (now + if d = 0 then c.config.Expiration else d), none) ∧
      mapLookup c2.items k = none ∧ c2.config = c.config := by
  rw [set_absent_unfold hm x d now]
  have hn1 : mapLookup (removeExpired c now).items k = none :=
    removeExpired_lookup_none hm now
  have hc1 : (removeExpired c now).itemCount
      = ((removeExpired c now).list.length : Int) :=
    removeExpired_count_length hcnt now
  by_cases hcap : (removeExpired c now).config.MaxEntryLimit
      ≤ (removeExpired c now).itemCount
  · rw [if_pos hcap]
    have hlim1 : 1 ≤ (removeExpired c now).itemCount := by
      calc (1 : Int) ≤ c.config.MaxEntryLimit := hlim
        _ = (removeExpired c now).config.MaxEntryLimit := by
          rw [removeExpired_config]
        _ ≤ (removeExpired c now).itemCount := hcap
    have hne : (removeExpired c now).list ≠ [] := by
      intro hnil
      rw [hc1, hnil] at hlim1
      simp at hlim1
    cases hlist : (removeExpired c now).list with
    | nil => exact absurd hlist hne
    | cons e rest =>
      rw [removeOldest_eq hlist]
      refine ⟨_, rfl, ?_, ?_⟩
      · show mapLookup (mapErase (removeExpired c now).items e.2.key) k = none
        rw [mapLookup_mapErase]
        split <;> simp [hn1]
      · exact removeExpired_config c now
  · rw [if_neg hcap]
    exact ⟨_, rfl, hn1, removeExpired_config c now⟩

/-- Looking up the key just written by `insertNew`. -/
theorem insertNew_lookup {V : Type} (c : ObjCache V) (k : String) (x : V)
    (ex : Int) :
    mapLookup (insertNew c k x ex).items k = some (c.nextId, ⟨x, ex, k⟩) := by
  show mapLookup (mapInsert c.items k (c.nextId, ⟨x, ex, k⟩)) k = _
  rw [mapLookup_mapInsert, if_pos rfl]

/-! ### Bulk insertion scenarios and canonical states -/

/-- One `Set` request in a bulk-insertion scenario: key, value, ttl, and
the instant at which the call happens. -/
structure Ins (V : Type) where
  key : String
  value : V
  ttl : Int
  now : Int
deriving DecidableEq

/-- The pair that `Set` builds for this request under configuration `g`. -/
def insPair {V : Type} (g : Config) (i : Ins V) : pair V :=
  ⟨i.value, i.now + (if i.ttl = 0 then g.Expiration else i.ttl), i.key⟩

/-- Run a sequence of `Set` calls, propagating a panic as `none`. -/
def insertAll {V : Type} (c : ObjCache V) : List (Ins V) → Option (ObjCache V)
  | [] => some c
  | i :: rest =>
    match Set c i.key i.value i.ttl i.now with
    | none => none
    | some r => insertAll r.1 rest

/-- The sequence of a cache holding exactly the pairs `ps` in insertion
order, with identities counting up from `n`. -/
def canonList {V : Type} (n : Nat) : List (pair V) → List (Elem V)
  | [] => []
  | p :: ps => (n, p) :: canonList (n + 1) ps

/-- The index of that same cache. -/
def canonItems {V : Type} (n : Nat) : List (pair V) → List (String × Elem V)
  | [] => []
  | p :: ps => (p.key, (n, p)) :: canonItems (n + 1) ps

/-- The cache state reached by inserting the pairs `ps` in order into a
fresh cache, while capacity was never hit. -/
def canonState {V : Type} (g : Config) (ps : List (pair V)) : ObjCache V :=
  { items := canonItems 0 ps, list := canonList 0 ps,
    itemCount := (ps.length : Int), config := g, nextId := ps.length }

theorem canonList_append {V : Type} (p : pair V) :
    ∀ (ps : List (pair V)) (n : Nat),
      canonList n (ps ++ [p]) = canonList n ps ++ [(n + ps.length, p)] := by
  intro ps
  induction ps with
  | nil => intro n; simp [canonList]
  | cons q tl ih =>
    intro n
    rw [List.cons_append, canonList, canonList, ih (n + 1)]
    simp only [List.length_cons, List.cons_append]
    rw [show n + 1 + tl.length = n + (tl.length + 1) by omega]

theorem canonItems_append {V : Type} (p : pair V) :
    ∀ (ps : List (pair V)) (n : Nat),
      canonItems n (ps ++ [p])
        = canonItems n ps ++ [(p.key, (n + ps.length, p))] := by
  intro ps
  induction ps with
  | nil => intro n; simp [canonItems]
  | cons q tl ih =>
    intro n
    rw [List.cons_append, canonItems, canonItems, ih (n + 1)]
    simp only [List.length_cons, List.cons_append]
    rw [show n + 1 + tl.length = n + (tl.length + 1) by omega]

theorem canonList_length {V : Type} :
    ∀ (ps : List (pair V)) (n : Nat), (canonList n ps).length = ps.length := by
  intro ps
  induction ps with
  | nil => intro n; rfl
  | cons q tl ih => intro n; simp [canonList, ih]

theorem canonItems_keys {V : Type} :
    ∀ (ps : List (pair V)) (n : Nat) (q : String × Elem V),
      q ∈ canonItems n ps → q.1 ∈ ps.map pair.key := by
  intro ps
  induction ps with
  | nil => intro n q hq; cases hq
  | cons p tl ih =>
    intro n q hq
    rcases List.mem_cons.mp hq with h1 | h1
    · simp [h1]
    · exact List.mem_cons_of_mem _ (ih (n + 1) q h1)

theorem canonItems_lookup_none {V : Type} {ps : List (pair V)} {k : String}
    (hk : k ∉ ps.map pair.key) (n : Nat) :
    mapLookup (canonItems n ps) k = none := by
  induction ps generalizing n with
  | nil => rfl
  | cons p tl ih =>
    have hpk : p.key ≠ k := by
      intro hc
      exact hk (by simp [hc])
    rw [canonItems, mapLookup, if_neg hpk]
    exact ih (fun hmem => hk (List.mem_cons_of_mem _ hmem)) (n + 1)

theorem removeExpired_canon {V : Type} (g : Config) (ps : List (pair V))
    (now : Int) (hfresh : ∀ p ∈ ps.head?, ¬ p.expire < now) :
    removeExpired (canonState g ps) now = canonState g ps := by
  have hhead : ∀ e ∈ ((canonState g ps).list).head?, ¬ e.2.expire < now := by
    cases ps with
    | nil => simp [canonState, canonList]
    | cons p tl =>
      intro e he
      have h0 : ((0 : Nat), p) = e := by
        simpa [canonState, canonList] using he
      rw [← h0]
      exact hfresh p (by simp)
  unfold removeExpired
  rw [sweepAux_noop now _ _ _ hhead]

theorem insertNew_canon {V : Type} (g : Config) (ps : List (pair V))
    (k : String) (x : V) (ex : Int) (hk : k ∉ ps.map pair.key) :
    insertNew (canonState g ps) k x ex = canonState g (ps ++ [⟨x, ex, k⟩]) := by
  have herase : mapErase (canonItems 0 ps) k = canonItems (V := V) 0 ps := by
    apply mapErase_eq_self
    intro q hq hc
    exact hk (hc ▸ canonItems_keys ps 0 q hq)
  have hitems : mapInsert (canonItems 0 ps) k (ps.length, (⟨x, ex, k⟩ : pair V))
      = canonItems 0 (ps ++ [⟨x, ex, k⟩]) := by
    rw [canonItems_append]
    unfold mapInsert
    rw [herase]
    simp
  have hlist : canonList 0 ps ++ [(ps.length, (⟨x, ex, k⟩ : pair V))]
      = canonList 0 (ps ++ [⟨x, ex, k⟩]) := by
    rw [canonList_append]
    simp
  show ({ items := mapInsert (canonItems 0 ps) k (ps.length, ⟨x, ex, k⟩),
          list := canonList 0 ps ++ [(ps.length, ⟨x, ex, k⟩)],
          itemCount := (ps.length : Int) + 1,
          config := g, nextId := ps.length + 1 } : ObjCache V)
      = canonState g (ps ++ [⟨x, ex, k⟩])
  rw [hitems, hlist]
  unfold canonState
  have hc : ((ps.length : Int) + 1)
      = (((ps ++ [(⟨x, ex, k⟩ : pair V)]).length : Int)) := by
    rw [List.length_append, List.length_singleton]
    push_cast
    ring
  have hn : ps.length + 1 = (ps ++ [(⟨x, ex, k⟩ : pair V)]).length := by
    rw [List.length_append, List.length_singleton]
  rw [hc, hn]

theorem set_fresh_canon {V : Type} (g : Config) (ps : List (pair V))
    (k : String) (x : V) (d now : Int)
    (hk : k ∉ ps.map pair.key)
    (hfresh : ∀ p ∈ ps, ¬ p.expire < now)
    (hcap : (ps.length : Int) < g.MaxEntryLimit) :
    Set (canonState g ps) k x d now =
      some (canonState g
        (ps ++ [⟨x, now + (if d = 0 then g.Expiration else d), k⟩]), none) := by
  have hm : mapLookup (canonState (V := V) g ps).items k = none :=
    canonItems_lookup_none hk 0
  rw [set_absent_unfold hm x d now,
    removeExpired_canon g ps now (fun p hp => hfresh p (List.mem_of_mem_head? hp))]
  rw [if_neg (by
    show ¬ g.MaxEntryLimit ≤ (ps.length : Int)
    omega)]
  rw [insertNew_canon g ps k x _ hk]
  rfl

theorem insertAll_canon {V : Type} (g : Config) :
    ∀ (ins : List (Ins V)) (ps : List (pair V)),
      ((ps ++ ins.map (insPair g)).map pair.key).Nodup →
      ((ps.length : Int) + ins.length ≤ g.MaxEntryLimit) →
      (∀ i ∈ ins, ∀ p ∈ ps ++ ins.map (insPair g), ¬ p.expire < i.now) →
      insertAll (canonState g ps) ins
        = some (canonState g (ps ++ ins.map (insPair g))) := by
  intro ins
  induction ins with
  | nil =>
    intro ps _ _ _
    simp [insertAll]
  | cons i tl ih =>
    intro ps hnd hlen hfresh
    have hk : i.key ∉ ps.map pair.key := by
      intro hmem
      have hnd' : ((ps.map pair.key)
          ++ ((i :: tl).map (insPair g)).map pair.key).Nodup := by
        rw [← List.map_append]
        exact hnd
      have hdisj := (List.nodup_append.mp hnd').2.2
      exact hdisj hmem (by simp [insPair])
    have hf : ∀ p ∈ ps, ¬ p.expire < i.now :=
      fun p hp => hfresh i (by simp) p (List.mem_append.mpr (Or.inl hp))
    have hcap : (ps.length : Int) < g.MaxEntryLimit := by
      simp only [List.length_cons] at hlen
      have h0 : (0 : Int) ≤ (tl.length : Int) := Int.ofNat_nonneg _
      push_cast at hlen
      omega
    have hstep : insertAll (canonState g ps) (i :: tl)
        = insertAll (canonState g (ps ++ [insPair g i])) tl := by
      show (match Set (canonState g ps) i.key i.value i.ttl i.now with
        | none => none
        | some r => insertAll r.1 tl) = _
      rw [set_fresh_canon g ps i.key i.value i.ttl i.now hk hf hcap]
      rfl
    rw [hstep]
    have hrw : ps ++ (i :: tl).map (insPair g)
        = (ps ++ [insPair g i]) ++ tl.map (insPair g) := by
      simp
    rw [hrw] at hnd hfresh ⊢
    refine ih (ps ++ [insPair g i]) hnd ?_ ?_
    · rw [List.length_append, List.length_singleton]
      simp only [List.length_cons] at hlen
      push_cast at hlen ⊢
      omega
    · intro i' hi' p hp
      exact hfresh i' (List.mem_cons_of_mem i hi') p hp

theorem insertAll_append {V : Type} (l1 l2 : List (Ins V)) :
    ∀ c : ObjCache V,
      insertAll c (l1 ++ l2) =
        match insertAll c l1 with
        | none => none
        | some c1 => insertAll c1 l2 := by
  induction l1 with
  | nil => intro c; simp [insertAll]
  | cons i tl ih =>
    intro c
    cases hset : Set c i.key i.value i.ttl i.now with
    | none =>
      have h1 : insertAll c ((i :: tl) ++ l2) = none := by
        rw [List.cons_append]
        show (match Set c i.key i.value i.ttl i.now with
          | none => none
          | some r2 => insertAll r2.1 (tl ++ l2)) = none
        rw [hset]
      have h2 : insertAll c (i :: tl) = none := by
        show (match Set c i.key i.value i.ttl i.now with
          | none => none
          | some r2 => insertAll r2.1 tl) = none
        rw [hset]
      rw [h1, h2]
    | some r =>
      have h1 : insertAll c ((i :: tl) ++ l2) = insertAll r.1 (tl ++ l2) := by
        rw [List.cons_append]
        show (match Set c i.key i.value i.ttl i.now with
          | none => none
          | some r2 => insertAll r2.1 (tl ++ l2)) = _
        rw [hset]
      have h2 : insertAll c (i :: tl) = insertAll r.1 tl := by
        show (match Set c i.key i.value i.ttl i.now with
          | none => none
          | some r2 => insertAll r2.1 tl) = _
        rw [hset]
      rw [h1, h2, ih r.1]

theorem set_at_capacity {V : Type} (g : Config) (p0 : pair V)
    (ptail : List (pair V)) (k : String) (x : V) (d now : Int)
    (hk : k ∉ (p0 :: ptail).map pair.key)
    (hfront : ¬ p0.expire < now)
    (hcap : g.MaxEntryLimit ≤ ((p0 :: ptail).length : Int)) :
    ∃ c' : ObjCache V,
      Set (canonState g (p0 :: ptail)) k x d now = some (c', none) ∧
      c'.itemCount = ((p0 :: ptail).length : Int) ∧
      c'.list.length = (p0 :: ptail).length ∧
      mapLookup c'.items p0.key = none := by
  have hm : mapLookup (canonState (V := V) g (p0 :: ptail)).items k = none :=
    canonItems_lookup_none hk 0
  rw [set_absent_unfold hm x d now,
    removeExpired_canon g (p0 :: ptail) now (by
      intro p hp
      have h0 : p0 = p := by simpa using hp
      rw [← h0]
      exact hfront)]
  rw [if_pos (by
    show g.MaxEntryLimit ≤ ((p0 :: ptail).length : Int)
    exact hcap)]
  have hlist : (canonState (V := V) g (p0 :: ptail)).list
      = ((0 : Nat), p0) :: canonList 1 ptail := rfl
  rw [removeOldest_eq hlist]
  have hpk : p0.key ≠ k := by
    intro hc
    exact hk (by simp [hc])
  refine ⟨_, rfl, ?_, ?_, ?_⟩
  · show ((p0 :: ptail).length : Int) - 1 + 1 = ((p0 :: ptail).length : Int)
    ring
  · show (listRemove (canonList 0 (p0 :: ptail)) 0 ++ [_]).length
      = (p0 :: ptail).length
    rw [show listRemove (canonList 0 (p0 :: ptail)) 0 = canonList 1 ptail by
      simp [canonList, listRemove]]
    rw [List.length_append, List.length_singleton, canonList_length]
    simp
  · show mapLookup (mapInsert
        (mapErase (canonState (V := V) g (p0 :: ptail)).items p0.key) k
        ((p0 :: ptail).length,
          (⟨x, now + if d = 0 then g.Expiration else d, k⟩ : pair V)))
        p0.key = none
    rw [mapLookup_mapInsert, if_neg hpk, mapLookup_mapErase, if_pos rfl]

theorem insPair_keys {V : Type} (g : Config) (l : List (Ins V)) :
    (l.map (insPair g)).map pair.key = l.map Ins.key := by
  induction l with
  | nil => rfl
  | cons i tl ih => simp [insPair, ih]

theorem removeOldest_count {V : Type} {c c2 : ObjCache V}
    (h : removeOldest c = some c2) : c2.itemCount = c.itemCount - 1 := by
  cases hl : c.list with
  | nil => rw [removeOldest, hl] at h; cases h
  | cons e rest =>
    rw [removeOldest, hl] at h
    rw [← Option.some_inj.mp h]

theorem removeExpired_count_le {V : Type} (c : ObjCache V) (now : Int) :
    (removeExpired c now).itemCount ≤ c.itemCount := by
  show (sweepAux now c.list c.items c.itemCount).2.2 ≤ c.itemCount
  rw [sweepAux_count]
  have h0 : (0 : Int) ≤ ((c.list.takeWhile (stale now)).length : Int) :=
    Int.ofNat_nonneg _
  omega

/-! ### Lock discipline model

The `sync.RWMutex` calls of cache.go, recorded in program order as traces.
Only the order of lock operations and shared-state mutations matters for
the exclusivity contract, so a trace abstracts an operation to exactly
those events. -/

/-- One lock event: acquire/release the read lock (`RLock`/`RUnlock`),
acquire/release the write lock (`Lock`/`Unlock`), or mutate the shared
index/sequence/count. -/
inductive LockEv
  | lockSh
  | unlockSh
  | lockEx
  | unlockEx
  | mut
deriving DecidableEq

/-- The events of `Get` (cache.go lines 82-100): `RLock`; on a stale hit
the three removal mutations happen before `RUnlock`, with no write lock
ever taken. -/
def GetTrace {V : Type} (c : ObjCache V) (k : String) (now : Int) :
    List LockEv :=
  match mapLookup c.items k with
  | none => [.lockSh, .unlockSh]
  | some e =>
    if e.2.expire < now then [.lockSh, .mut, .unlockSh]
    else [.lockSh, .unlockSh]

/-- The events of `Set` (cache.go lines 52-79): `Lock`, one mutation per
entry removed by the sweep, one for a capacity eviction, one for the
insertion or reposition, `Unlock`. -/
def SetTrace {V : Type} (c : ObjCache V) (k : String) (now : Int) :
    List LockEv :=
  match mapLookup c.items k with
  | some _ => [.lockEx, .mut, .unlockEx]
  | none =>
    [LockEv.lockEx]
      ++ List.replicate ((c.list.takeWhile (stale now)).length) LockEv.mut
      ++ (if (removeExpired c now).config.MaxEntryLimit
            ≤ (removeExpired c now).itemCount then [LockEv.mut] else [])
      ++ [LockEv.mut, LockEv.unlockEx]

/-- The events of `Del` (cache.go lines 103-113). -/
def DelTrace {V : Type} (c : ObjCache V) (k : String) : List LockEv :=
  match mapLookup c.items k with
  | none => [.lockEx, .unlockEx]
  | some _ => [.lockEx, .mut, .unlockEx]

/-- Scan a trace tracking whether the exclusive lock is held; `true` iff
every mutation happens while it is held.  Holding only the shared lock
does not count as exclusivity. -/
def mutOkFrom : Bool → List LockEv → Bool
  | _, [] => true
  | _, .lockEx :: tr => mutOkFrom true tr
  | _, .unlockEx :: tr => mutOkFrom false tr
  | b, .lockSh :: tr => mutOkFrom b tr
  | b, .unlockSh :: tr => mutOkFrom b tr
  | b, .mut :: tr => b && mutOkFrom b tr

/-- Whether every mutation of a trace happens under the exclusive lock. -/
def mutationsExclusive (tr : List LockEv) : Bool := mutOkFrom false tr

/-! ### Concrete states used by witnesses -/

/-- A sample configuration: capacity 2, default TTL 50. -/
def cfg1 : Config := ⟨2, 50⟩

/-- A concrete cache holding value 7 under key "a", expiring at 10. -/
def cacheA : ObjCache Nat :=
  { items := [("a", (0, ⟨7, 10, "a"⟩))],
    list := [(0, ⟨7, 10, "a"⟩)],
    itemCount := 1, config := cfg1, nextId := 1 }

/-- The state after `Set cacheA "b" 3 5 0`. -/
def cacheB : ObjCache Nat :=
  { items := [("a", (0, ⟨7, 10, "a"⟩)), ("b", (1, ⟨3, 5, "b"⟩))],
    list := [(0, ⟨7, 10, "a"⟩), (1, ⟨3, 5, "b"⟩)],
    itemCount := 2, config := cfg1, nextId := 2 }

/-! ### Claim theorems -/

/-- Drives the C1 counterexample: from an empty cache with configuration
`g`, set `k` to `v1`, set `k` to `v2` with ttl `d`, then read `k` at the
same instant; returns the observed value and found flag. -/
def roundTripTwice (g : Config) (k : String) (v1 v2 : Nat) (d now : Int) :
    Option (Option Nat × Bool) :=
  match Set (New Nat g).1 k v1 d now with
  | none => none
  | some r1 =>
    match Set r1.1 k v2 d now with
    | none => none
    | some r2 => some ((Get r2.1 k now).1, (Get r2.1 k now).2.1)

/-- C1 counterexample: with ttl 5 > 0 and key "a" already present with
value 1, `Set("a", 2, 5)` followed immediately by `Get("a")` returns the
old value 1 and not the just-written 2, so the round trip fails for a key
that was already present with a different value. -/
theorem c1_roundtrip_counterexample :
    roundTripTwice ⟨2, 50⟩ "a" 1 2 5 0 = some (some 1, true) ∧
      (some 1 : Option Nat) ≠ some 2 := by
  constructor
  · decide
  · decide

/-- C1 (amended): the round trip holds for a key that is absent before
the `Set`: under a positive capacity, a count matching the sequence
length, and a positive effective ttl, `Set(k, x, d)` succeeds with a nil
error and an immediate `Get(k)` returns `(x, true)` without changing the
state.  (When the key is already present the stored value is returned
instead, as the counterexample shows.) -/
theorem c1_roundtrip_fresh {V : Type} (c : ObjCache V) (k : String) (x : V)
    (d now : Int) (hm : mapLookup c.items k = none)
    (hlim : 1 ≤ c.config.MaxEntryLimit)
    (hcnt : c.itemCount = (c.list.length : Int))
    (hd : 0 < if d = 0 then c.config.Expiration else d) :
    ∃ c', Set c k x d now = some (c', none)
      ∧ Get c' k now = (some x, true, c') := by
  obtain ⟨c2, hset, hn2, hcfg⟩ := set_absent_some hm hlim hcnt x d now
  refine ⟨_, hset, ?_⟩
  have hlook := insertNew_lookup c2 k x
    (now + if d = 0 then c.config.Expiration else d)
  have := get_fresh_eq hlook
    (show ¬ now + (if d = 0 then c.config.Expiration else d) < now by omega)
  exact this

theorem c1_roundtrip_fresh_witness :
    ∃ c', Set (New Nat ⟨2, 50⟩).1 "a" 7 5 0 = some (c', none)
      ∧ Get c' "a" 0 = (some 7, true, c') :=
  c1_roundtrip_fresh (New Nat ⟨2, 50⟩).1 "a" 7 5 0 (by decide) (by decide)
    (by decide) (by decide)

/-- C2: `Set` on a present key only moves the existing entry to the back
of the sequence: the result keeps the index (hence the entry's stored
value and expiration), the live count, the configuration and the
allocation counter; all other entries keep their relative order; no sweep
and no capacity eviction happen; the error is nil. -/
theorem c2_set_present_refresh {V : Type} (c : ObjCache V) (k : String)
    (x : V) (d now : Int) (e : Elem V)
    (hm : mapLookup c.items k = some e) (he : e ∈ c.list) :
    Set c k x d now
      = some ({ c with list := listRemove c.list e.1 ++ [e] }, none) := by
  rw [set_present_eq hm x d now]
  rw [show moveToBack c.list e = listRemove c.list e.1 ++ [e] by
    unfold moveToBack
    rw [if_pos (any_id_of_mem he)]]

theorem c2_set_present_refresh_witness :
    Set cacheA "a" 99 444 0
      = some ({ cacheA with
          list := listRemove cacheA.list 0 ++ [(0, ⟨7, 10, "a"⟩)] }, none) :=
  c2_set_present_refresh cacheA "a" 99 444 0 (0, ⟨7, 10, "a"⟩)
    (by decide) (by decide)

/-- C4: the expiration sweep removes exactly the maximal stale prefix of
the sequence: the remaining sequence is `dropWhile stale`, the count drops
by the length of `takeWhile stale`, the index loses exactly the keys of
that prefix, and configuration and allocation counter are untouched — so
a stale entry behind a non-stale front entry is not removed. -/
theorem c4_sweep_characterization {V : Type} (c : ObjCache V) (now : Int) :
    (removeExpired c now).list = c.list.dropWhile (stale now) ∧
    (removeExpired c now).itemCount
      = c.itemCount - ((c.list.takeWhile (stale now)).length : Int) ∧
    (removeExpired c now).items
      = (c.list.takeWhile (stale now)).foldl
          (fun m e => mapErase m e.2.key) c.items ∧
    (removeExpired c now).config = c.config ∧
    (removeExpired c now).nextId = c.nextId :=
  ⟨sweepAux_list now c.list c.items c.itemCount,
   sweepAux_count now c.list c.items c.itemCount,
   sweepAux_items now c.list c.items c.itemCount,
   rfl, rfl⟩

/-- C5: `Get` trichotomy: an absent key reports not-found and leaves the
state unchanged; a present stale entry is removed from index and sequence
with the count decremented, reporting not-found; a present fresh entry is
returned with the state unchanged. -/
theorem c5_get_spec {V : Type} (c : ObjCache V) (k : String) (now : Int) :
    (mapLookup c.items k = none → Get c k now = (none, false, c)) ∧
    (∀ e, mapLookup c.items k = some e → e.2.expire < now →
      Get c k now = (none, false,
        { c with itemCount := c.itemCount - 1,
                 items := mapErase c.items k,
                 list := listRemove c.list e.1 })) ∧
    (∀ e, mapLookup c.items k = some e → ¬ e.2.expire < now →
      Get c k now = (some e.2.Object, true, c)) :=
  ⟨fun hm => get_none_eq hm now,
   fun _ hm hst => get_stale_eq hm hst,
   fun _ hm hfr => get_fresh_eq hm hfr⟩

theorem c5_get_spec_witness :
    Get cacheA "b" 0 = (none, false, cacheA) ∧
    Get cacheA "a" 20 = (none, false,
      { cacheA with itemCount := cacheA.itemCount - 1,
                    items := mapErase cacheA.items "a",
                    list := listRemove cacheA.list 0 }) ∧
    Get cacheA "a" 5 = (some 7, true, cacheA) :=
  ⟨(c5_get_spec cacheA "b" 0).1 (by decide),
   (c5_get_spec cacheA "a" 20).2.1 (0, ⟨7, 10, "a"⟩) (by decide) (by decide),
   (c5_get_spec cacheA "a" 5).2.2 (0, ⟨7, 10, "a"⟩) (by decide) (by decide)⟩

/-- C6: invariants I1 (index/sequence bijection through unique element
identities) and I2 (tracked count equals sequence length) hold in the
freshly constructed cache and in every state reachable from one by
sequential `Set`/`Get`/`Del` calls. -/
theorem c6_invariants {V : Type} (c : ObjCache V) (h : Reachable c) :
    I1 c ∧ I2 c :=
  ⟨(reachable_wf h).1, (reachable_wf h).2.1⟩

theorem c6_invariants_witness :
    I1 (New Nat ⟨2, 50⟩).1 ∧ I2 (New Nat ⟨2, 50⟩).1 :=
  c6_invariants (New Nat ⟨2, 50⟩).1 (Reachable.new ⟨2, 50⟩)

/-- C7: with `MaxEntryLimit ≥ 1` and the count equal to the sequence
length (invariant I2), `Set` never reaches the nil-dereference in
`removeOldest` — it always returns a state and the nil error — and `New`
always succeeds with a nil error. -/
theorem c7_set_infallible {V : Type} (c : ObjCache V) (k : String) (x : V)
    (d now : Int) (hlim : 1 ≤ c.config.MaxEntryLimit)
    (hcnt : c.itemCount = (c.list.length : Int)) :
    (∃ c', Set c k x d now = some (c', none)) ∧
    (∀ g : Config, (New V g).2 = none) := by
  constructor
  · cases hm : mapLookup c.items k with
    | none =>
      obtain ⟨c2, hset, _, _⟩ := set_absent_some hm hlim hcnt x d now
      exact ⟨_, hset⟩
    | some e => exact ⟨_, set_present_eq hm x d now⟩
  · intro g
    rfl

theorem c7_set_infallible_witness :
    (∃ c', Set cacheA "b" 3 5 0 = some (c', none)) ∧
    (∀ g : Config, (New Nat g).2 = none) :=
  c7_set_infallible cacheA "b" 3 5 0 (by decide) (by decide)

/-- C8: `Del` on an absent key returns `false` and leaves the whole state
unchanged; on a present key it removes the entry from index and sequence,
decrements the count and returns `true`; a second `Del` then returns
`false` and changes nothing. -/
theorem c8_del_spec {V : Type} (c : ObjCache V) (k : String) :
    (mapLookup c.items k = none → Del c k = (false, c)) ∧
    (∀ e, mapLookup c.items k = some e →
      Del c k = (true, { c with itemCount := c.itemCount - 1,
                                items := mapErase c.items k,
                                list := listRemove c.list e.1 }) ∧
      Del (Del c k).2 k = (false, (Del c k).2)) := by
  refine ⟨fun hm => del_none_eq hm, ?_⟩
  intro e hm
  refine ⟨del_some_eq hm, ?_⟩
  apply del_none_eq
  rw [show (Del c k).2.items = mapErase c.items k by rw [del_some_eq hm]]
  rw [mapLookup_mapErase, if_pos rfl]

theorem c8_del_spec_witness :
    (Del cacheA "b" = (false, cacheA)) ∧
    Del cacheA "a" = (true, { cacheA with
        itemCount := cacheA.itemCount - 1,
        items := mapErase cacheA.items "a",
        list := listRemove cacheA.list 0 }) ∧
    Del (Del cacheA "a").2 "a" = (false, (Del cacheA "a").2) :=
  ⟨(c8_del_spec cacheA "b").1 (by decide),
   ((c8_del_spec cacheA "a").2 (0, ⟨7, 10, "a"⟩) (by decide)).1,
   ((c8_del_spec cacheA "a").2 (0, ⟨7, 10, "a"⟩) (by decide)).2⟩

/-- C9 (code violation): cache.go's `Get` removes a stale entry — three
mutations of index, sequence and count — while holding only the shared
read lock (`RLock` at line 83, mutation at lines 92-94, `RUnlock` at line
95), never upgrading to the write lock: on `cacheA` at time 20 the trace
is `[RLock, mutate, RUnlock]` and the exclusivity checker rejects it,
while `Set` and `Del` mutate only under the write lock. -/
theorem c9_get_mutates_under_read_lock :
    GetTrace cacheA "a" 20 = [LockEv.lockSh, LockEv.mut, LockEv.unlockSh] ∧
    mutationsExclusive (GetTrace cacheA "a" 20) = false ∧
    mutationsExclusive (SetTrace cacheA "a" 20) = true ∧
    mutationsExclusive (SetTrace cacheA "c" 20) = true ∧
    mutationsExclusive (DelTrace cacheA "a") = true := by
  refine ⟨by decide, by decide, by decide, by decide, by decide⟩

/-- C10: a strictly negative ttl is not replaced by the configured
default: `Set` inserts an entry whose expiration `now + d` is already in
the past, and an immediate `Get` reports not-found and removes that entry
from index and sequence, decrementing the count. -/
theorem c10_negative_ttl {V : Type} (c : ObjCache V) (k : String) (x : V)
    (d now : Int) (hm : mapLookup c.items k = none) (hd : d < 0)
    (hlim : 1 ≤ c.config.MaxEntryLimit)
    (hcnt : c.itemCount = (c.list.length : Int)) :
    ∃ c' id, Set c k x d now = some (c', none) ∧
      mapLookup c'.items k = some (id, ⟨x, now + d, k⟩) ∧
      now + d < now ∧
      Get c' k now = (none, false,
        { c' with itemCount := c'.itemCount - 1,
                  items := mapErase c'.items k,
                  list := listRemove c'.list id }) := by
  obtain ⟨c2, hset, hn2, hcfg⟩ := set_absent_some hm hlim hcnt x d now
  have hd0 : ¬ d = 0 := by omega
  rw [if_neg hd0] at hset
  refine ⟨_, c2.nextId, hset, ?_, by omega, ?_⟩
  · exact insertNew_lookup c2 k x (now + d)
  · exact get_stale_eq (insertNew_lookup c2 k x (now + d))
      (show now + d < now by omega)

theorem c10_negative_ttl_witness :
    ∃ c' id, Set (New Nat ⟨2, 50⟩).1 "a" 7 (-3) 100 = some (c', none) ∧
      mapLookup c'.items "a" = some (id, ⟨7, 100 + (-3), "a"⟩) ∧
      (100 : Int) + (-3) < 100 ∧
      Get c' "a" 100 = (none, false,
        { c' with itemCount := c'.itemCount - 1,
                  items := mapErase c'.items "a",
                  list := listRemove c'.list id }) :=
  c10_negative_ttl (New Nat ⟨2, 50⟩).1 "a" 7 (-3) 100
    (by decide) (by decide) (by decide) (by decide)

/-- C3: starting from an empty cache with `MaxEntryLimit = N ≥ 1`,
inserting `N + 1` distinct keys by `Set` calls whose entries never expire
before any of the calls leaves exactly `N` live entries (count and
sequence length), and the first-inserted key is gone from the index, so
`Get` on it misses at any time; and in general any `Set` that returns
keeps a live count that was at most `MaxEntryLimit` at most
`MaxEntryLimit`, because the absent-key path evicts the front entry
whenever the post-sweep count reaches the limit. -/
theorem c3_capacity_bound :
    (∀ (V : Type) (g : Config) (N : Nat) (i0 : Ins V) (rest : List (Ins V)),
      1 ≤ N → g.MaxEntryLimit = (N : Int) → rest.length = N →
      ((i0 :: rest).map Ins.key).Nodup →
      (∀ i ∈ i0 :: rest, ∀ j ∈ i0 :: rest, ¬ (insPair g j).expire < i.now) →
      ∃ c', insertAll (New V g).1 (i0 :: rest) = some c' ∧
        c'.itemCount = (N : Int) ∧ c'.list.length = N ∧
        mapLookup c'.items i0.key = none ∧
        ∀ t, Get c' i0.key t = (none, false, c')) ∧
    (∀ (V : Type) (c : ObjCache V) (k : String) (x : V) (d now : Int)
        (r : ObjCache V × Option String),
      c.itemCount ≤ c.config.MaxEntryLimit →
      Set c k x d now = some r →
      r.1.itemCount ≤ c.config.MaxEntryLimit) := by
  constructor
  · intro V g N i0 rest hN hlim hrest hnd hfresh
    have hne : rest ≠ [] := by
      intro h0
      rw [h0] at hrest
      simp at hrest
      omega
    have hsplit : (i0 :: rest.dropLast) ++ [rest.getLast hne] = i0 :: rest := by
      rw [List.cons_append, List.dropLast_append_getLast hne]
    have hsub : List.Sublist (i0 :: rest.dropLast) (i0 :: rest) :=
      List.Sublist.cons₂ i0 (List.dropLast_sublist rest)
    have hnd1 : ((i0 :: rest.dropLast).map Ins.key).Nodup :=
      List.Nodup.sublist (List.Sublist.map Ins.key hsub) hnd
    have hlen1 : (i0 :: rest.dropLast).length = N := by
      simp only [List.length_cons, List.length_dropLast]
      omega
    have hcanon : insertAll (canonState g []) (i0 :: rest.dropLast)
        = some (canonState g ([] ++ (i0 :: rest.dropLast).map (insPair g))) := by
      apply insertAll_canon
      · rw [List.nil_append, insPair_keys]
        exact hnd1
      · simp only [List.length_nil, Nat.cast_zero, zero_add, hlen1, hlim]
        exact le_refl _
      · intro i hi p hp
        rw [List.nil_append] at hp
        obtain ⟨j, hj, rfl⟩ := List.mem_map.mp hp
        exact hfresh i (hsub.subset hi) j (hsub.subset hj)
    have hps1 : ([] ++ (i0 :: rest.dropLast).map (insPair g))
        = insPair g i0 :: rest.dropLast.map (insPair g) := by
      simp
    have hlast_mem : rest.getLast hne ∈ i0 :: rest :=
      List.mem_cons_of_mem i0 (List.getLast_mem hne)
    have hk_last : (rest.getLast hne).key
        ∉ (insPair g i0 :: rest.dropLast.map (insPair g)).map pair.key := by
      intro hmem
      rw [show (insPair g i0 :: rest.dropLast.map (insPair g))
            = (i0 :: rest.dropLast).map (insPair g) by simp,
        insPair_keys] at hmem
      have hnd2 : (((i0 :: rest.dropLast) ++ [rest.getLast hne]).map
          Ins.key).Nodup := by
        rw [hsplit]
        exact hnd
      rw [List.map_append] at hnd2
      have hdisj := (List.nodup_append.mp hnd2).2.2
      exact hdisj hmem (by simp)
    have hfront : ¬ (insPair g i0).expire < (rest.getLast hne).now :=
      hfresh (rest.getLast hne) hlast_mem i0 (by simp)
    have hlen_ps1 : (insPair g i0 :: rest.dropLast.map (insPair g)).length
        = N := by
      simp only [List.length_cons, List.length_map, List.length_dropLast]
      omega
    have hcapge : g.MaxEntryLimit
        ≤ ((insPair g i0 :: rest.dropLast.map (insPair g)).length : Int) := by
      rw [hlen_ps1, hlim]
    obtain ⟨c', hset, hcount, hlen', hlook⟩ :=
      set_at_capacity g (insPair g i0) (rest.dropLast.map (insPair g))
        (rest.getLast hne).key (rest.getLast hne).value
        (rest.getLast hne).ttl (rest.getLast hne).now hk_last hfront hcapge
    have hfin : insertAll
        (canonState g ([] ++ (i0 :: rest.dropLast).map (insPair g)))
        [rest.getLast hne] = some c' := by
      rw [hps1]
      show (match Set (canonState g
          (insPair g i0 :: rest.dropLast.map (insPair g)))
          (rest.getLast hne).key (rest.getLast hne).value
          (rest.getLast hne).ttl (rest.getLast hne).now with
        | none => none
        | some r => insertAll r.1 []) = some c'
      rw [hset]
      rfl
    refine ⟨c', ?_, ?_, ?_, hlook, fun t => get_none_eq hlook t⟩
    · have h0 : (New V g).1 = canonState (V := V) g [] := by
        simp [New, canonState, canonItems, canonList]
      rw [h0, ← hsplit,
        insertAll_append (i0 :: rest.dropLast) [rest.getLast hne]
          (canonState g []),
        hcanon]
      show insertAll
        (canonState g ([] ++ (i0 :: rest.dropLast).map (insPair g)))
        [rest.getLast hne] = some c'
      exact hfin
    · rw [hcount, hlen_ps1]
    · rw [hlen', hlen_ps1]
  · intro V c k x d now r hle hset
    cases hm : mapLookup c.items k with
    | some e =>
      rw [set_present_eq hm x d now] at hset
      rw [← Option.some_inj.mp hset]
      exact hle
    | none =>
      rw [set_absent_unfold hm x d now] at hset
      have hc1le : (removeExpired c now).itemCount ≤ c.itemCount :=
        removeExpired_count_le c now
      by_cases hcap : (removeExpired c now).config.MaxEntryLimit
          ≤ (removeExpired c now).itemCount
      · rw [if_pos hcap] at hset
        cases hro : removeOldest (removeExpired c now) with
        | none => rw [hro] at hset; cases hset
        | some c2 =>
          rw [hro] at hset
          have hc2 : c2.itemCount = (removeExpired c now).itemCount - 1 :=
            removeOldest_count hro
          rw [← Option.some_inj.mp hset]
          show c2.itemCount + 1 ≤ c.config.MaxEntryLimit
          omega
      · rw [if_neg hcap] at hset
        rw [← Option.some_inj.mp hset]
        show (removeExpired c now).itemCount + 1 ≤ c.config.MaxEntryLimit
        rw [removeExpired_config] at hcap
        omega

theorem c3_capacity_bound_witness :
    (∃ c', insertAll (New Nat ⟨1, 10⟩).1 [⟨"a", 5, 1, 0⟩, ⟨"b", 6, 1, 0⟩]
        = some c' ∧
      c'.itemCount = ((1 : Nat) : Int) ∧ c'.list.length = 1 ∧
      mapLookup c'.items "a" = none ∧
      ∀ t, Get c' "a" t = (none, false, c')) ∧
    (cacheB, (none : Option String)).1.itemCount
      ≤ cacheA.config.MaxEntryLimit :=
  ⟨c3_capacity_bound.1 Nat ⟨1, 10⟩ 1 ⟨"a", 5, 1, 0⟩ [⟨"b", 6, 1, 0⟩]
      (by decide) (by decide) (by decide) (by decide) (by decide),
   c3_capacity_bound.2 Nat cacheA "b" 3 5 0 (cacheB, none)
      (by decide) (by decide)⟩

end objcache
